import Mathlib

/-!
# Verification of the HelioSwarm trajectory-ingestion pipeline

Shallow embedding of `src/helioswarm/__init__.py` (functions
`read_positions` and `write_summary`) and of the visualization script
`src/visualization/hs-single-hour-baselines.py`, together with theorems
settling the specification claims about them.

Numeric file values are modelled as rationals, parsed timestamps as
naturals, and byte strings as lists of naturals (byte values).
-/

/-! ## Ingestion model: `read_positions`

Each trajectory file, once parsed by the fixed-width reader, is a list of
records; `read_positions` uses column 0 (the date), columns 1-3 (the
position) and column 5 (the true anomaly).
-/

/-- One parsed fixed-width record of a trajectory file: column 0 is the
parsed timestamp, columns 1-5 are numeric fields. `read_positions` uses
columns 0 (date), 1-3 (position) and 5 (true anomaly). -/
structure Row where
  c0 : Nat
  c1 : ℚ
  c2 : ℚ
  c3 : ℚ
  c4 : ℚ
  c5 : ℚ
  deriving DecidableEq

/-- The file read for spacecraft `i`:
`f"Node{i}_preProcessed.txt" if i else "Chief.txt"`. -/
def fname (i : Nat) : String :=
  if i = 0 then "Chief.txt" else "Node" ++ toString i ++ "_preProcessed.txt"

/-- The date-alignment check of `read_positions`: for `i` in 1..8,
raise `ValueError(f"N{i} dates do not match hub.")` at the first `i`
whose date array differs from the hub's. -/
def checkDates (dates : List (List Nat)) : Except String Unit :=
  match (List.range' 1 8).find? (fun i => dates.getD i [] != dates.getD 0 []) with
  | some i => Except.error ("N" ++ toString i ++ " dates do not match hub.")
  | none => Except.ok ()

/-- `numpy.stack(arrays, axis=1)`: element `[t, i]` of the result is
element `t` of array `i`.  The common record count is the length of the
first array (`numpy` additionally requires all lengths equal, which holds
whenever the date check passed). -/
def stackAxis1 (arrays : List (List α)) (d : α) : List (List α) :=
  (List.range (arrays.getD 0 []).length).map fun t => arrays.map fun a => a.getD t d

/-- The nine per-spacecraft date arrays (`dates` in `read_positions`):
entry `i` is the parsed column 0 of the file of spacecraft `i`. -/
def datesOf (dir : String → List Row) : List (List Nat) :=
  (List.range 9).map fun i => (dir (fname i)).map Row.c0

/-- The nine per-spacecraft position arrays (`positions` in
`read_positions`): entry `i` holds columns 1-3 of the file of
spacecraft `i`. -/
def positionsOf (dir : String → List Row) : List (List (ℚ × ℚ × ℚ)) :=
  (List.range 9).map fun i => (dir (fname i)).map fun r => (r.c1, r.c2, r.c3)

/-- The nine per-spacecraft true-anomaly arrays (`true_anom` in
`read_positions`): entry `i` is column 5 of the file of spacecraft `i`. -/
def anomOf (dir : String → List Row) : List (List ℚ) :=
  (List.range 9).map fun i => (dir (fname i)).map Row.c5

/-- `read_positions`: read the nine per-spacecraft files (hub first),
check every node's dates against the hub's, and return the hub's dates
together with the stacked positions `(time, 9, 3)` and true anomaly
`(time, 9)`.  The directory is modelled as a map from file name to parsed
records. -/
def read_positions (dir : String → List Row) :
    Except String (List Nat × List (List (ℚ × ℚ × ℚ)) × List (List ℚ)) :=
  match checkDates (datesOf dir) with
  | Except.error e => Except.error e
  | Except.ok _ =>
      Except.ok ((datesOf dir).getD 0 [], stackAxis1 (positionsOf dir) (0, 0, 0),
        stackAxis1 (anomOf dir) 0)

/-! ## `write_summary` model: pairwise baselines

`write_summary` computes
`head = numpy.repeat(positions, 9, axis=0).reshape(-1, 9, 9, 3)`,
`tail = numpy.repeat(positions, 9, axis=1).reshape(-1, 9, 9, 3)`,
`baselines = head - tail`.  Arrays are modelled as index functions; the
`repeat`/`reshape` index arithmetic is carried out explicitly. -/

/-- `numpy.repeat(P, 9, axis=0)` on a `(T, 9, 3)` array: record `a` of the
result is record `a / 9` of the input. -/
def repeatAxis0 (P : Nat → Nat → Nat → ℚ) : Nat → Nat → Nat → ℚ :=
  fun a j c => P (a / 9) j c

/-- `numpy.repeat(P, 9, axis=1)` on a `(T, 9, 3)` array: column `b` of the
result is column `b / 9` of the input. -/
def repeatAxis1 (P : Nat → Nat → Nat → ℚ) : Nat → Nat → Nat → ℚ :=
  fun t b c => P t (b / 9) c

/-- `head`: `repeat(positions, 9, axis=0)` reshaped to `(T, 9, 9, 3)` in C
order, so entry `[t, i, j, c]` is entry `[9 t + i, j, c]` of the repeat. -/
def head (P : Nat → Nat → Nat → ℚ) : Nat → Nat → Nat → Nat → ℚ :=
  fun t i j c => repeatAxis0 P (9 * t + i) j c

/-- `tail`: `repeat(positions, 9, axis=1)` reshaped to `(T, 9, 9, 3)` in C
order, so entry `[t, i, j, c]` is entry `[t, 9 i + j, c]` of the repeat. -/
def tail (P : Nat → Nat → Nat → ℚ) : Nat → Nat → Nat → Nat → ℚ :=
  fun t i j c => repeatAxis1 P t (9 * i + j) c

/-- `baselines = head - tail`, elementwise. -/
def baselines (P : Nat → Nat → Nat → ℚ) : Nat → Nat → Nat → Nat → ℚ :=
  fun t i j c => head P t i j c - tail P t i j c

/-- C2 helper: `head` repeats the time record across the first spacecraft
axis. -/
theorem head_eq (P : Nat → Nat → Nat → ℚ) (t i j c : Nat) (hi : i < 9) :
    head P t i j c = P t j c := by
  unfold head repeatAxis0
  rw [Nat.mul_add_div (by norm_num), Nat.div_eq_of_lt hi, Nat.add_zero]

/-- C2 helper: `tail` repeats each spacecraft position across the second
spacecraft axis. -/
theorem tail_eq (P : Nat → Nat → Nat → ℚ) (t i j c : Nat) (hj : j < 9) :
    tail P t i j c = P t i c := by
  unfold tail repeatAxis1
  rw [Nat.mul_add_div (by norm_num), Nat.div_eq_of_lt hj, Nat.add_zero]

/-- **C2.** For in-range spacecraft indices `i, j < 9`, the baseline entry
`[t, i, j, c]` computed by `write_summary` is component `c` of
`Position[t, j] - Position[t, i]`: the directed vector from the spacecraft
of the first index to the spacecraft of the second index. -/
theorem baselines_eq_head_minus_tail (P : Nat → Nat → Nat → ℚ)
    (t i j c : Nat) (hi : i < 9) (hj : j < 9) :
    baselines P t i j c = P t j c - P t i c := by
  unfold baselines
  rw [head_eq P t i j c hi, tail_eq P t i j c hj]

/-- Witness for C2 at a concrete array: with `P t j c = t + 10 * j + 100 * c`,
the baseline `[0, 3, 4, 1]` is the Y component of the vector from N3 to N4. -/
theorem baselines_eq_head_minus_tail_witness :
    baselines (fun t j c => (t : ℚ) + 10 * j + 100 * c) 0 3 4 1 =
      ((0 : ℚ) + 10 * 4 + 100 * 1) - ((0 : ℚ) + 10 * 3 + 100 * 1) :=
  baselines_eq_head_minus_tail (fun t j c => (t : ℚ) + 10 * j + 100 * c)
    0 3 4 1 (by norm_num) (by norm_num)

/-- **C9.** The baseline array is antisymmetric with zero diagonal: for
in-range spacecraft indices, `Baseline[t, i, j] = -Baseline[t, j, i]` and
`Baseline[t, i, i] = 0` componentwise. -/
theorem baselines_antisymm_diag_zero (P : Nat → Nat → Nat → ℚ)
    (t i j c : Nat) (hi : i < 9) (hj : j < 9) :
    baselines P t i j c = -baselines P t j i c ∧ baselines P t i i c = 0 := by
  constructor
  · rw [baselines_eq_head_minus_tail P t i j c hi hj,
      baselines_eq_head_minus_tail P t j i c hj hi]
    ring
  · rw [baselines_eq_head_minus_tail P t i i c hi hi]
    ring

/-- Witness for C9 at a concrete array and concrete indices. -/
theorem baselines_antisymm_diag_zero_witness :
    baselines (fun t j c => (t : ℚ) + 10 * j + 100 * c) 2 1 5 0 =
      -baselines (fun t j c => (t : ℚ) + 10 * j + 100 * c) 2 5 1 0 ∧
    baselines (fun t j c => (t : ℚ) + 10 * j + 100 * c) 2 1 1 0 = 0 :=
  baselines_antisymm_diag_zero (fun t j c => (t : ℚ) + 10 * j + 100 * c)
    2 1 5 0 (by norm_num) (by norm_num)

/-! ## Helper lemmas for list indexing -/

/-- Indexing a mapped range at an in-range position. -/
theorem getD_map_range {β : Type} (f : Nat → β) (d : β) {i n : Nat} (h : i < n) :
    ((List.range n).map f).getD i d = f i := by
  have hl : i < ((List.range n).map f).length := by simpa using h
  rw [List.getD_eq_getElem _ _ hl, List.getElem_map, List.getElem_range]

/-- Indexing a mapped list at an in-range position. -/
theorem getD_map_lt {α β : Type} (f : α → β) (l : List α) (d : α) (d2 : β)
    {n : Nat} (h : n < l.length) :
    (l.map f).getD n d2 = f (l.getD n d) := by
  have h2 : n < (l.map f).length := by simpa using h
  rw [List.getD_eq_getElem _ _ h2, List.getD_eq_getElem _ _ h, List.getElem_map]

/-- Two lists of equal length are unequal iff they differ at some index. -/
theorem list_ne_iff_exists_getD {l1 l2 : List Nat} (h : l1.length = l2.length) :
    l1 ≠ l2 ↔ ∃ t, t < l2.length ∧ l1.getD t 0 ≠ l2.getD t 0 := by
  constructor
  · intro hne
    by_contra hc
    push_neg at hc
    refine hne (List.ext_getElem h fun n h1 h2 => ?_)
    have h3 := hc n h2
    rwa [List.getD_eq_getElem _ _ h1, List.getD_eq_getElem _ _ h2] at h3
  · rintro ⟨t, ht, hne⟩ heq
    exact hne (by rw [heq])

/-- Entry `i < 9` of the per-spacecraft date arrays. -/
theorem datesOf_getD (dir : String → List Row) {i : Nat} (h : i < 9) :
    (datesOf dir).getD i [] = (dir (fname i)).map Row.c0 := by
  rw [datesOf]; exact getD_map_range _ _ h

/-! ## C1: the date-mismatch check is the only error -/

/-- `checkDates` errors iff some node's date array differs from the hub's. -/
theorem checkDates_error_iff (dates : List (List Nat)) :
    (∃ e, checkDates dates = Except.error e) ↔
      ∃ i, 1 ≤ i ∧ i ≤ 8 ∧ dates.getD i [] ≠ dates.getD 0 [] := by
  unfold checkDates
  cases hf : (List.range' 1 8).find? (fun i => dates.getD i [] != dates.getD 0 []) with
  | none =>
      rw [List.find?_eq_none] at hf
      simp only [Except.ok.injEq]
      constructor
      · rintro ⟨e, he⟩
        cases he
      · rintro ⟨i, h1, h8, hne⟩
        have hm : i ∈ List.range' 1 8 := by
          rw [List.mem_range'_1]; omega
        have := hf i hm
        simp only [bne_iff_ne, ne_eq, Decidable.not_not] at this
        exact absurd this hne
  | some i =>
      have hm := List.mem_of_find?_eq_some hf
      rw [List.mem_range'_1] at hm
      have hp := List.find?_some hf
      rw [bne_iff_ne] at hp
      constructor
      · intro _
        exact ⟨i, hm.1, by omega, hp⟩
      · intro _
        exact ⟨"N" ++ toString i ++ " dates do not match hub.", rfl⟩

/-- `read_positions` errors iff `checkDates` errors on the date arrays. -/
theorem read_positions_error_iff_check (dir : String → List Row) :
    (∃ e, read_positions dir = Except.error e) ↔
      ∃ e, checkDates (datesOf dir) = Except.error e := by
  unfold read_positions
  cases hc : checkDates (datesOf dir) with
  | error e => simp
  | ok u => simp

/-- **C1.** For nine parsed trajectory files of equal record counts,
`read_positions` raises an error if and only if some node `i` in 1..8 has a
parsed timestamp differing from the hub's at some record; equivalently,
when all node timestamp arrays equal the hub's it returns normally.  In
the model the date check is the only error site of the ingestion, so the
equivalence also shows it is the pipeline's only validation error. -/
theorem read_positions_error_iff_date_mismatch (dir : String → List Row)
    (hlen : ∀ i, i < 9 → (dir (fname i)).length = (dir (fname 0)).length) :
    (∃ e, read_positions dir = Except.error e) ↔
      ∃ i, 1 ≤ i ∧ i ≤ 8 ∧ ∃ t, t < (dir (fname 0)).length ∧
        ((dir (fname i)).map Row.c0).getD t 0 ≠
          ((dir (fname 0)).map Row.c0).getD t 0 := by
  rw [read_positions_error_iff_check, checkDates_error_iff]
  constructor
  · rintro ⟨i, h1, h8, hne⟩
    have hi9 : i < 9 := by omega
    rw [datesOf_getD dir hi9, datesOf_getD dir (by norm_num)] at hne
    have hl : ((dir (fname i)).map Row.c0).length =
        ((dir (fname 0)).map Row.c0).length := by
      simp [hlen i hi9]
    rw [list_ne_iff_exists_getD hl] at hne
    obtain ⟨t, ht, hne⟩ := hne
    exact ⟨i, h1, h8, t, by simpa using ht, hne⟩
  · rintro ⟨i, h1, h8, t, ht, hne⟩
    have hi9 : i < 9 := by omega
    refine ⟨i, h1, h8, ?_⟩
    rw [datesOf_getD dir hi9, datesOf_getD dir (by norm_num)]
    intro heq
    exact hne (by rw [heq])

/-- A directory whose `Node3` file has a different timestamp than the
rest: concrete input exercising C1. -/
def wDirC1 : String → List Row := fun s =>
  if s = "Node3_preProcessed.txt" then [⟨5, 0, 0, 0, 0, 0⟩] else [⟨7, 0, 0, 0, 0, 0⟩]

/-- Witness for C1: on `wDirC1` the record counts agree and
`read_positions` raises. -/
theorem read_positions_error_iff_date_mismatch_witness :
    (∀ i, i < 9 → (wDirC1 (fname i)).length = (wDirC1 (fname 0)).length) ∧
    (∃ e, read_positions wDirC1 = Except.error e) :=
  ⟨by decide, (read_positions_error_iff_date_mismatch wDirC1 (by decide)).mpr
    ⟨3, by norm_num, by norm_num, 0, by decide, by decide⟩⟩

/-! ## C4: nine files, hub first, stacked output shapes -/

/-- Decomposition of a successful `read_positions` run. -/
theorem read_positions_ok (dir : String → List Row)
    {out : List Nat × List (List (ℚ × ℚ × ℚ)) × List (List ℚ)}
    (h : read_positions dir = Except.ok out) :
    checkDates (datesOf dir) = Except.ok () ∧
    out = ((datesOf dir).getD 0 [], stackAxis1 (positionsOf dir) (0, 0, 0),
      stackAxis1 (anomOf dir) 0) := by
  unfold read_positions at h
  cases hc : checkDates (datesOf dir) with
  | error e => rw [hc] at h; cases h
  | ok u => rw [hc] at h; cases h; exact ⟨rfl, rfl⟩

/-- If the date check passed, every node's date array equals the hub's. -/
theorem checkDates_ok_eq {dates : List (List Nat)}
    (h : checkDates dates = Except.ok ()) :
    ∀ i, 1 ≤ i → i ≤ 8 → dates.getD i [] = dates.getD 0 [] := by
  unfold checkDates at h
  cases hf : (List.range' 1 8).find? (fun i => dates.getD i [] != dates.getD 0 []) with
  | some i => rw [hf] at h; cases h
  | none =>
      rw [List.find?_eq_none] at hf
      intro i h1 h8
      have hm : i ∈ List.range' 1 8 := by rw [List.mem_range'_1]; omega
      have := hf i hm
      simpa only [bne_iff_ne, ne_eq, Decidable.not_not] using this

/-- If the date check passed, all nine files have the hub's record count. -/
theorem fileLen_eq (dir : String → List Row)
    (h : checkDates (datesOf dir) = Except.ok ()) :
    ∀ i, i < 9 → (dir (fname i)).length = (dir (fname 0)).length := by
  intro i hi
  rcases Nat.eq_zero_or_pos i with h0 | h1
  · rw [h0]
  · have he := checkDates_ok_eq h i h1 (by omega)
    rw [datesOf_getD dir hi, datesOf_getD dir (by norm_num)] at he
    have := congrArg List.length he
    simpa using this

/-- The stacked array has one row per hub record. -/
theorem stackAxis1_length {α : Type} (arrays : List (List α)) (d : α) :
    (stackAxis1 arrays d).length = (arrays.getD 0 []).length := by
  simp [stackAxis1]

/-- Row `t` of the stacked array gathers element `t` of each input array. -/
theorem stackAxis1_getD {α : Type} (arrays : List (List α)) (d : α) {t : Nat}
    (ht : t < (arrays.getD 0 []).length) :
    (stackAxis1 arrays d).getD t [] = arrays.map fun a => a.getD t d := by
  rw [stackAxis1]; exact getD_map_range _ _ ht

/-- **C4.** A successful `read_positions` run reads exactly the nine files
`Chief.txt`, `Node1_preProcessed.txt` .. `Node8_preProcessed.txt` (hub at
spacecraft index 0, nodes 1..8 in order), returns the hub's times, and
returns positions of shape `(time, 9, 3)` and true anomaly of shape
`(time, 9)` whose spacecraft axis is indexed by those files in order. -/
theorem read_positions_nine_files_shape (dir : String → List Row)
    (dates : List Nat) (pos : List (List (ℚ × ℚ × ℚ))) (anom : List (List ℚ))
    (h : read_positions dir = Except.ok (dates, pos, anom)) :
    (List.range 9).map fname =
      ["Chief.txt", "Node1_preProcessed.txt", "Node2_preProcessed.txt",
       "Node3_preProcessed.txt", "Node4_preProcessed.txt", "Node5_preProcessed.txt",
       "Node6_preProcessed.txt", "Node7_preProcessed.txt", "Node8_preProcessed.txt"] ∧
    dates = (dir (fname 0)).map Row.c0 ∧
    pos.length = dates.length ∧
    anom.length = dates.length ∧
    (∀ t, t < dates.length →
      (pos.getD t []).length = 9 ∧ (anom.getD t []).length = 9) ∧
    (∀ t i, t < dates.length → i < 9 →
      (pos.getD t []).getD i (0, 0, 0) =
        (((dir (fname i)).getD t ⟨0, 0, 0, 0, 0, 0⟩).c1,
         ((dir (fname i)).getD t ⟨0, 0, 0, 0, 0, 0⟩).c2,
         ((dir (fname i)).getD t ⟨0, 0, 0, 0, 0, 0⟩).c3) ∧
      (anom.getD t []).getD i 0 = ((dir (fname i)).getD t ⟨0, 0, 0, 0, 0, 0⟩).c5) := by
  obtain ⟨hc, hout⟩ := read_positions_ok dir h
  obtain ⟨hd, hp, ha⟩ : dates = (datesOf dir).getD 0 [] ∧
      pos = stackAxis1 (positionsOf dir) (0, 0, 0) ∧
      anom = stackAxis1 (anomOf dir) 0 := by
    have h1 := congrArg Prod.fst hout
    have h2 := congrArg (fun x => x.2.1) hout
    have h3 := congrArg (fun x => x.2.2) hout
    exact ⟨h1, h2, h3⟩
  have hdates : dates = (dir (fname 0)).map Row.c0 := by
    rw [hd, datesOf_getD dir (by norm_num)]
  have hlen := fileLen_eq dir hc
  have hpos0 : (positionsOf dir).getD 0 [] =
      (dir (fname 0)).map fun r => (r.c1, r.c2, r.c3) := by
    rw [positionsOf]; exact getD_map_range _ _ (by norm_num)
  have hanom0 : (anomOf dir).getD 0 [] = (dir (fname 0)).map Row.c5 := by
    rw [anomOf]; exact getD_map_range _ _ (by norm_num)
  have hdlen : dates.length = (dir (fname 0)).length := by rw [hdates]; simp
  refine ⟨rfl, hdates, ?_, ?_, ?_, ?_⟩
  · rw [hp, stackAxis1_length, hpos0, hdlen]; simp
  · rw [ha, stackAxis1_length, hanom0, hdlen]; simp
  · intro t ht
    have htp : t < ((positionsOf dir).getD 0 []).length := by
      rw [hpos0]; simpa [hdlen] using ht
    have hta : t < ((anomOf dir).getD 0 []).length := by
      rw [hanom0]; simpa [hdlen] using ht
    constructor
    · rw [hp, stackAxis1_getD _ _ htp]; simp [positionsOf]
    · rw [ha, stackAxis1_getD _ _ hta]; simp [anomOf]
  · intro t i ht hi
    have hti : t < (dir (fname i)).length := by
      rw [hlen i hi]; rwa [hdlen] at ht
    have htp : t < ((positionsOf dir).getD 0 []).length := by
      rw [hpos0]; simpa [hdlen] using ht
    have hta : t < ((anomOf dir).getD 0 []).length := by
      rw [hanom0]; simpa [hdlen] using ht
    constructor
    · rw [hp, stackAxis1_getD _ _ htp, positionsOf, List.map_map,
        getD_map_range _ _ hi]
      exact getD_map_lt _ _ ⟨0, 0, 0, 0, 0, 0⟩ _ hti
    · rw [ha, stackAxis1_getD _ _ hta, anomOf, List.map_map,
        getD_map_range _ _ hi]
      exact getD_map_lt _ _ ⟨0, 0, 0, 0, 0, 0⟩ _ hti

/-- A directory whose nine files all hold the single record
`(7, 1, 2, 3, 4, 55)`: concrete success input. -/
def dirA : String → List Row := fun _ => [⟨7, 1, 2, 3, 4, 55⟩]

/-- Witness for C4: on `dirA`, `read_positions` succeeds and the returned
times are the hub file's parsed column 0. -/
theorem read_positions_nine_files_shape_witness :
    read_positions dirA = Except.ok ([7],
      [List.replicate 9 ((1 : ℚ), (2 : ℚ), (3 : ℚ))],
      [List.replicate 9 (55 : ℚ)]) ∧
    ([7] : List Nat) = (dirA (fname 0)).map Row.c0 := by
  have hok : read_positions dirA = Except.ok ([7],
      [List.replicate 9 ((1 : ℚ), (2 : ℚ), (3 : ℚ))],
      [List.replicate 9 (55 : ℚ)]) := by rfl
  exact ⟨hok, (read_positions_nine_files_shape dirA _ _ _ hok).2.1⟩

/-! ## C5: true anomaly is pass-through, not derived

The pipeline reads `True_Anomaly` directly from column 5 of each input
file (`usecols=(5,)`) and `write_summary` writes `true_anom[start:stop]`
unchanged; it is not computed from the trajectory data. -/

/-- Same as `dirA` except that column 5 of every record is 66 instead of
55; the trajectory data (dates and positions) are identical. -/
def dirB : String → List Row := fun _ => [⟨7, 1, 2, 3, 4, 66⟩]

/-- **C5 counterexample.** Two inputs with identical trajectory data
(equal dates and equal positions) but different column-5 values produce
different `True_Anomaly` outputs, and each output is exactly the column-5
data of the input: the values are taken from a column of the input files,
not computed from the ingested trajectory data. -/
theorem true_anom_not_derived_counterexample :
    read_positions dirA = Except.ok ([7],
      [List.replicate 9 ((1 : ℚ), (2 : ℚ), (3 : ℚ))],
      [List.replicate 9 (55 : ℚ)]) ∧
    read_positions dirB = Except.ok ([7],
      [List.replicate 9 ((1 : ℚ), (2 : ℚ), (3 : ℚ))],
      [List.replicate 9 (66 : ℚ)]) ∧
    (dirA (fname 0)).map Row.c5 = [55] ∧
    (dirB (fname 0)).map Row.c5 = [66] ∧
    List.replicate 9 (55 : ℚ) ≠ List.replicate 9 (66 : ℚ) :=
  ⟨rfl, rfl, rfl, rfl, by decide⟩

/-- **C5 (amended).** The `True_Anomaly` values emitted by the pipeline
are the column-5 values of the input trajectory files, unchanged: on any
successful run, entry `[t, i]` of the true-anomaly output equals column 5
of record `t` of the file of spacecraft `i`. -/
theorem true_anom_passthrough (dir : String → List Row)
    (dates : List Nat) (pos : List (List (ℚ × ℚ × ℚ))) (anom : List (List ℚ))
    (h : read_positions dir = Except.ok (dates, pos, anom)) :
    ∀ t i, t < dates.length → i < 9 →
      (anom.getD t []).getD i 0 = ((dir (fname i)).getD t ⟨0, 0, 0, 0, 0, 0⟩).c5 := by
  obtain ⟨hc, hout⟩ := read_positions_ok dir h
  have hd : dates = (datesOf dir).getD 0 [] := congrArg Prod.fst hout
  have ha : anom = stackAxis1 (anomOf dir) 0 := congrArg (fun x => x.2.2) hout
  have hdates : dates = (dir (fname 0)).map Row.c0 := by
    rw [hd, datesOf_getD dir (by norm_num)]
  have hdlen : dates.length = (dir (fname 0)).length := by rw [hdates]; simp
  have hanom0 : (anomOf dir).getD 0 [] = (dir (fname 0)).map Row.c5 := by
    rw [anomOf]; exact getD_map_range _ _ (by norm_num)
  intro t i ht hi
  have hti : t < (dir (fname i)).length := by
    rw [fileLen_eq dir hc i hi]; rwa [hdlen] at ht
  have hta : t < ((anomOf dir).getD 0 []).length := by
    rw [hanom0]; simpa [hdlen] using ht
  rw [ha, stackAxis1_getD _ _ hta, anomOf, List.map_map, getD_map_range _ _ hi]
  exact getD_map_lt _ _ ⟨0, 0, 0, 0, 0, 0⟩ _ hti

/-- Witness for the amended C5 on the concrete input `dirA`. -/
theorem true_anom_passthrough_witness :
    read_positions dirA = Except.ok ([7],
      [List.replicate 9 ((1 : ℚ), (2 : ℚ), (3 : ℚ))],
      [List.replicate 9 (55 : ℚ)]) ∧
    (([List.replicate 9 (55 : ℚ)].getD 0 []).getD 2 0 =
      ((dirA (fname 2)).getD 0 ⟨0, 0, 0, 0, 0, 0⟩).c5) := by
  have hok : read_positions dirA = Except.ok ([7],
      [List.replicate 9 ((1 : ℚ), (2 : ℚ), (3 : ℚ))],
      [List.replicate 9 (55 : ℚ)]) := by rfl
  exact ⟨hok, true_anom_passthrough dirA _ _ _ hok 0 2 (by norm_num) (by norm_num)⟩

/-! ## C3: the fixed-width header parser

Model of the column-inference part of `read_positions`: scan lines for the
header underline (`while not l.startswith(b"------")`), compute
`colstart = [j for j in range(len(l)) if j == 0 or l[j-1] == 45 and l[j] == 32]
            + [len(l.rstrip())]`
and `widths[i] = colstart[i+1] - colstart[i]`; records are then split at
those widths.  Lines are lists of byte values (45 is a dash, 32 a space). -/

/-- `l.startswith(b"------")`: the line begins with six dashes. -/
def startsWithDashes (l : List Nat) : Bool :=
  l.take 6 == [45, 45, 45, 45, 45, 45]

/-- The header scan: the loop `while not l.startswith(b"------"): l = next(f)`
stops at the first line starting with dashes (`none` models the
`StopIteration` when no such line exists). -/
def scanHeader (lines : List (List Nat)) : Option (List Nat) :=
  lines.find? startsWithDashes

/-- The bytes stripped by `bytes.rstrip()`: ASCII whitespace. -/
def isSpaceByte (b : Nat) : Bool :=
  b == 32 || b == 9 || b == 10 || b == 13 || b == 11 || b == 12

/-- `l.rstrip()`: drop trailing whitespace bytes. -/
def rstrip (l : List Nat) : List Nat :=
  (l.reverse.dropWhile isSpaceByte).reverse

/-- The inferred column boundaries: offset 0, every offset whose previous
byte is a dash and whose own byte is a space, and finally the length of
the stripped underline. -/
def colstart (l : List Nat) : List Nat :=
  ((List.range l.length).filter fun j =>
    j == 0 || (l.getD (j - 1) 0 == 45 && l.getD j 0 == 32)) ++ [(rstrip l).length]

/-- The inferred field widths: differences of consecutive boundaries. -/
def widths (cs : List Nat) : List Nat :=
  (List.range (cs.length - 1)).map fun i => cs.getD (i + 1) 0 - cs.getD i 0

/-- Fixed-width record splitting as performed by
`numpy.genfromtxt(..., delimiter=widths)`: cut the line into consecutive
fields of the given widths. -/
def splitWidths : List Nat → List Nat → List (List Nat)
  | [], _ => []
  | w :: ws, line => line.take w :: splitWidths ws (line.drop w)

/-- A non-whitespace byte survives `rstrip`: its offset is below the
stripped length. -/
theorem lt_rstrip_length {l : List Nat} {m : Nat} (hm : m < l.length)
    (h : isSpaceByte (l.getD m 0) = false) : m < (rstrip l).length := by
  have hdecomp : l = rstrip l ++ (l.reverse.takeWhile isSpaceByte).reverse := by
    rw [rstrip, ← List.reverse_append, List.takeWhile_append_dropWhile,
      List.reverse_reverse]
  by_contra hge
  push_neg at hge
  set t := (l.reverse.takeWhile isSpaceByte).reverse with ht
  have hlen : l.length = (rstrip l).length + t.length := by
    conv_lhs => rw [hdecomp]
    simp
  have hmt : m - (rstrip l).length < t.length := by omega
  have hbyte : l.getD m 0 = t.getD (m - (rstrip l).length) 0 := by
    conv_lhs => rw [hdecomp]
    exact List.getD_append_right _ _ _ _ hge
  have hmem : t.getD (m - (rstrip l).length) 0 ∈ t := by
    rw [List.getD_eq_getElem _ _ hmt]
    exact List.getElem_mem hmt
  rw [ht, List.mem_reverse] at hmem
  have := List.mem_takeWhile_imp hmem
  rw [hbyte] at h
  rw [h] at this
  cases this

/-- Every inferred boundary is at most the stripped-underline length. -/
theorem colstart_mem_le {l : List Nat} {j : Nat}
    (hj : j ∈ (List.range l.length).filter fun j =>
      j == 0 || (l.getD (j - 1) 0 == 45 && l.getD j 0 == 32)) :
    j ≤ (rstrip l).length := by
  rw [List.mem_filter, List.mem_range] at hj
  obtain ⟨hjl, hp⟩ := hj
  simp only [Bool.or_eq_true, beq_iff_eq, Bool.and_eq_true] at hp
  rcases hp with h0 | ⟨h45, _⟩
  · omega
  · rcases Nat.eq_zero_or_pos j with h0 | h1
    · omega
    · have hm : j - 1 < l.length := by omega
      have hns : isSpaceByte (l.getD (j - 1) 0) = false := by rw [h45]; rfl
      have := lt_rstrip_length hm hns
      omega

/-- The boundary list is weakly increasing. -/
theorem colstart_pairwise_le (l : List Nat) :
    List.Pairwise (· ≤ ·) (colstart l) := by
  rw [colstart, List.pairwise_append]
  refine ⟨?_, List.pairwise_singleton _ _, ?_⟩
  · have hsub : List.Sublist ((List.range l.length).filter fun j =>
        j == 0 || (l.getD (j - 1) 0 == 45 && l.getD j 0 == 32))
        (List.range l.length) := List.filter_sublist _
    exact (((List.pairwise_lt_range _).sublist hsub).imp fun h => Nat.le_of_lt h)
  · intro x hx y hy
    rw [List.mem_singleton] at hy
    rw [hy]
    exact colstart_mem_le hx

/-- The first inferred boundary is offset 0. -/
theorem colstart_head (l : List Nat) : (colstart l).getD 0 0 = 0 := by
  cases l with
  | nil => rfl
  | cons a as =>
      rw [colstart]
      have : List.range (a :: as).length = 0 :: List.map Nat.succ (List.range as.length) := by
        rw [List.length_cons, List.range_succ_eq_map]
      rw [this]
      rw [List.filter_cons]
      simp

/-- Width `k` is the difference of boundaries `k+1` and `k`. -/
theorem widths_getD (cs : List Nat) {k : Nat} (hk : k < cs.length - 1) :
    (widths cs).getD k 0 = cs.getD (k + 1) 0 - cs.getD k 0 := by
  rw [widths]; exact getD_map_range _ _ hk

/-- There is one width per pair of consecutive boundaries. -/
theorem widths_length (cs : List Nat) : (widths cs).length = cs.length - 1 := by
  simp [widths]

/-- Indexing a weakly increasing list is monotone. -/
theorem pairwise_le_getD {cs : List Nat} (h : List.Pairwise (· ≤ ·) cs)
    {i j : Nat} (hij : i ≤ j) (hj : j < cs.length) :
    cs.getD i 0 ≤ cs.getD j 0 := by
  rcases Nat.lt_or_ge i j with hlt | hge
  · rw [List.getD_eq_getElem _ _ (by omega), List.getD_eq_getElem _ _ hj]
    exact List.pairwise_iff_getElem.mp h i j (by omega) hj hlt
  · have : i = j := by omega
    rw [this]

/-- The widths telescope: the first `k` widths sum to boundary `k` minus
boundary 0. -/
theorem sum_take_widths (cs : List Nat) (h : List.Pairwise (· ≤ ·) cs) :
    ∀ k, k < cs.length → ((widths cs).take k).sum = cs.getD k 0 - cs.getD 0 0 := by
  intro k
  induction k with
  | zero => intro _; simp
  | succ k ih =>
      intro hk
      have hkw : k < (widths cs).length := by rw [widths_length]; omega
      rw [List.take_succ, List.sum_append, List.getElem?_eq_getElem hkw]
      simp only [Option.toList_some, List.sum_cons, List.sum_nil, Nat.add_zero]
      rw [← List.getD_eq_getElem _ 0 hkw, widths_getD cs (by omega), ih (by omega)]
      have h1 : cs.getD 0 0 ≤ cs.getD k 0 := pairwise_le_getD h (by omega) (by omega)
      have h2 : cs.getD k 0 ≤ cs.getD (k + 1) 0 := pairwise_le_getD h (by omega) hk
      omega

/-- Field `k` of the fixed-width split starts after the first `k` widths
and has width `k`'s length. -/
theorem splitWidths_getD (ws : List Nat) : ∀ (line : List Nat) (k : Nat),
    k < ws.length →
    (splitWidths ws line).getD k [] =
      (line.drop ((ws.take k).sum)).take (ws.getD k 0) := by
  induction ws with
  | nil => intro line k hk; simp at hk
  | cons w ws ih =>
      intro line k hk
      cases k with
      | zero => simp [splitWidths]
      | succ k =>
          have hk2 : k < ws.length := by simpa using hk
          show (splitWidths ws (line.drop w)).getD k [] = _
          rw [ih (line.drop w) k hk2, List.drop_drop]
          have h1 : ((w :: ws).take (k + 1)).sum = w + (ws.take k).sum := by simp
          have h2 : (w :: ws).getD (k + 1) 0 = ws.getD k 0 := by
            simp [List.getD_cons_succ]
          rw [h1, h2]

/-- The inferred boundaries are exactly: offset 0, the dash-to-space
transitions, and the stripped length. -/
theorem mem_colstart_iff (l : List Nat) (j : Nat) :
    j ∈ colstart l ↔
      (j < l.length ∧ (j = 0 ∨ (l.getD (j - 1) 0 = 45 ∧ l.getD j 0 = 32))) ∨
      j = (rstrip l).length := by
  rw [colstart, List.mem_append, List.mem_filter, List.mem_range,
    List.mem_singleton]
  simp only [Bool.or_eq_true, beq_iff_eq, Bool.and_eq_true]

/-- **C3.** The parser stops its header scan at the first line starting
with dashes; the inferred column boundaries are exactly offset 0, the
offsets whose previous byte is a dash and whose own byte is a space, and
the end of the stripped underline; and the subsequent records are split
into fields using exactly the widths between consecutive boundaries, so
field `k` of a record line spans the bytes from boundary `k` to boundary
`k+1`. -/
theorem header_scan_colstart_widths (lines : List (List Nat)) (l : List Nat)
    (hscan : scanHeader lines = some l) :
    (startsWithDashes l = true ∧
      ∃ pre suf, lines = pre ++ l :: suf ∧ ∀ x ∈ pre, startsWithDashes x = false) ∧
    (∀ j, j ∈ colstart l ↔
      (j < l.length ∧ (j = 0 ∨ (l.getD (j - 1) 0 = 45 ∧ l.getD j 0 = 32))) ∨
      j = (rstrip l).length) ∧
    (∀ k, k + 1 < (colstart l).length →
      (widths (colstart l)).getD k 0 =
        (colstart l).getD (k + 1) 0 - (colstart l).getD k 0) ∧
    (∀ line k, k + 1 < (colstart l).length →
      (splitWidths (widths (colstart l)) line).getD k [] =
        (line.drop ((colstart l).getD k 0)).take
          ((colstart l).getD (k + 1) 0 - (colstart l).getD k 0)) := by
  refine ⟨?_, fun j => mem_colstart_iff l j, ?_, ?_⟩
  · rw [scanHeader, List.find?_eq_some] at hscan
    obtain ⟨hp, as, bs, heq, hall⟩ := hscan
    exact ⟨hp, as, bs, heq, fun x hx => by simpa using hall x hx⟩
  · intro k hk
    exact widths_getD _ (by omega)
  · intro line k hk
    have hkw : k < (widths (colstart l)).length := by rw [widths_length]; omega
    rw [splitWidths_getD _ line k hkw,
      sum_take_widths (colstart l) (colstart_pairwise_le l) k (by omega),
      colstart_head, Nat.sub_zero, widths_getD _ (by omega)]

/-- A concrete header underline `"------ --\n"` (six dashes, space, two
dashes, newline). -/
def demoUnderline : List Nat := [45, 45, 45, 45, 45, 45, 32, 45, 45, 10]

/-- A concrete file: one non-underline header line followed by the
underline. -/
def demoLines : List (List Nat) := [[32, 72, 101], demoUnderline]

/-- Witness for C3 on the concrete file: the scan finds the underline and
the first width is the difference of the first two boundaries. -/
theorem header_scan_colstart_widths_witness :
    scanHeader demoLines = some demoUnderline ∧
    (widths (colstart demoUnderline)).getD 0 0 =
      (colstart demoUnderline).getD 1 0 - (colstart demoUnderline).getD 0 0 := by
  have hscan : scanHeader demoLines = some demoUnderline := by rfl
  exact ⟨hscan,
    (header_scan_colstart_widths demoLines demoUnderline hscan).2.2.1 0 (by decide)⟩

/-! ## C6: polyhedron subset enumeration in the visualization

`hs-single-hour-baselines.py` builds
`polyhedra = [list(comb) for M in range(4, len(points) + 1)
              for comb in combinations(range(len(points)), M)]`
over the nine spacecraft positions and appends `(L, E, P, len(poly))` for
each; the vertex-count field is modelled here (the shape statistics are
floating-point eigenvalue computations). -/

/-- The enumerated vertex subsets: for each `M` from 4 to `n`, all
size-`M` combinations of `range n`. -/
def polyhedra (n : Nat) : List (List Nat) :=
  ((List.range' 4 (n + 1 - 4)).map fun M => (List.range n).sublistsLen M).flatten

/-- Each appended result, restricted to its recorded vertex count: the
subset together with `len(poly)`. -/
def resultsRecords (n : Nat) : List (List Nat × Nat) :=
  (polyhedra n).map fun poly => (poly, poly.length)

/-- **C6.** The polyhedron statistics are computed over every subset of
`M` of the nine spacecraft for every `M` from 4 to 9: exactly
`C(9,4)+C(9,5)+C(9,6)+C(9,7)+C(9,8)+C(9,9) = 382` polyhedra, each being a
subset of the nine indices with between 4 and 9 vertices, every such
subset occurring, and each result recording the vertex count of its
subset. -/
theorem polyhedra_enumeration :
    (polyhedra 9).length = 382 ∧
    (∀ s, List.Sublist s (List.range 9) → 4 ≤ s.length → s ∈ polyhedra 9) ∧
    (∀ s, s ∈ polyhedra 9 →
      List.Sublist s (List.range 9) ∧ 4 ≤ s.length ∧ s.length ≤ 9) ∧
    (∀ r ∈ resultsRecords 9, r.2 = r.1.length) := by
  refine ⟨?_, ?_, ?_, ?_⟩
  · rw [polyhedra, List.length_flatten, List.map_map]
    norm_num [Function.comp_def, List.length_sublistsLen]
    decide
  · intro s hsub hlen
    have hle : s.length ≤ 9 := by simpa using hsub.length_le
    rw [polyhedra, List.mem_flatten]
    refine ⟨(List.range 9).sublistsLen s.length, ?_, ?_⟩
    · exact List.mem_map_of_mem _ (by rw [List.mem_range'_1]; omega)
    · rw [List.mem_sublistsLen]; exact ⟨hsub, rfl⟩
  · intro s hs
    rw [polyhedra, List.mem_flatten] at hs
    obtain ⟨lM, hlM, hsM⟩ := hs
    rw [List.mem_map] at hlM
    obtain ⟨M, hM, rfl⟩ := hlM
    rw [List.mem_range'_1] at hM
    rw [List.mem_sublistsLen] at hsM
    exact ⟨hsM.1, by omega, by omega⟩
  · intro r hr
    rw [resultsRecords, List.mem_map] at hr
    obtain ⟨poly, _, rfl⟩ := hr
    rfl

/-- Witness for C6: the tetrahedral subset `{0, 1, 2, 3}` is enumerated. -/
theorem polyhedra_enumeration_witness : [0, 1, 2, 3] ∈ polyhedra 9 :=
  polyhedra_enumeration.2.1 [0, 1, 2, 3] (by decide) (by norm_num)

/-! ## C7: the magnetopause boundary model

`hs-single-hour-baselines.py` defines
`magnetopause_boundary(theta, R0=R0, alpha=ALPHA)` returning
`R0 * (2 / (1 + np.cos(theta)))**alpha` with module constants `R0 = 12`
and `ALPHA = 0.6`, and classifies the spacecraft as inside the
magnetosphere via `np.where(r_3D < magnetopause_boundary_3D, 'blue', 'red')`. -/

/-- Module constant `R0 = 12` (subsolar standoff distance, Earth radii). -/
noncomputable def hsR0 : ℝ := 12

/-- Module constant `ALPHA = 0.6` (empirical magnetopause shape factor). -/
noncomputable def hsALPHA : ℝ := 0.6

/-- `magnetopause_boundary(theta, R0, alpha)`: the Formisano-model
boundary distance at angle `theta`. -/
noncomputable def magnetopause_boundary (theta R0 alpha : ℝ) : ℝ :=
  R0 * (2 / (1 + Real.cos theta)) ^ alpha

/-- The inside/outside classification
`np.where(r < boundary, 'blue', 'red')` for a single point. -/
noncomputable def insideColor (r b : ℝ) : String :=
  if r < b then "blue" else "red"

/-- **C7.** The boundary model is
`R(theta) = R0 * (2 / (1 + cos theta))^alpha` with `R0 = 12` and
`alpha = 0.6`, and a spacecraft at radial distance `r` is classified
inside the magnetosphere (blue) exactly when `r` is strictly less than
`R(theta)`. -/
theorem magnetopause_boundary_model (theta r : ℝ) :
    hsR0 = 12 ∧ hsALPHA = 0.6 ∧
    magnetopause_boundary theta hsR0 hsALPHA =
      12 * (2 / (1 + Real.cos theta)) ^ (0.6 : ℝ) ∧
    (insideColor r (magnetopause_boundary theta hsR0 hsALPHA) = "blue" ↔
      r < magnetopause_boundary theta hsR0 hsALPHA) := by
  refine ⟨rfl, rfl, rfl, ?_⟩
  rw [insideColor]
  by_cases h : r < magnetopause_boundary theta hsR0 hsALPHA
  · simp [h]
  · rw [if_neg h]
    constructor
    · intro he
      exact absurd he (by decide)
    · intro hr
      exact absurd hr h

/-! ## C10: `find_closest_time_index`

`find_closest_time_index` computes
`time_diffs = [abs((time - target).total_seconds()) for time in epoch_data]`
and returns `np.argmin(time_diffs)`.  Times are modelled as integer
seconds; `np.argmin` returns the first index attaining the minimum. -/

/-- `np.argmin`: the first index of the minimal element (0 on the empty
list, where `numpy` raises). -/
def argmin [LinearOrder α] : List α → Nat
  | [] => 0
  | x :: xs => if xs.all fun v => decide (x ≤ v) then 0 else argmin xs + 1

/-- `find_closest_time_index(epoch_data, target_time)` with the target
already parsed to a time: index of the minimal absolute difference. -/
def find_closest_time_index (epoch_data : List Int) (target : Int) : Nat :=
  argmin (epoch_data.map fun time => |time - target|)

/-- `argmin` returns a valid index of a minimal element, and the first
such index: every earlier element is strictly larger. -/
theorem argmin_spec {α : Type} [LinearOrder α] (d : α) (l : List α)
    (h : l ≠ []) :
    argmin l < l.length ∧
    (∀ j, j < l.length → l.getD (argmin l) d ≤ l.getD j d) ∧
    (∀ j, j < argmin l → l.getD (argmin l) d < l.getD j d) := by
  induction l with
  | nil => exact absurd rfl h
  | cons x xs ih =>
      by_cases hall : (xs.all fun v => decide (x ≤ v)) = true
      · have hmin : ∀ v ∈ xs, x ≤ v := by
          intro v hv
          have := List.all_eq_true.mp hall v hv
          exact of_decide_eq_true this
        have hz : argmin (x :: xs) = 0 := by rw [argmin, if_pos hall]
        rw [hz]
        refine ⟨by simp, ?_, ?_⟩
        · intro j hj
          cases j with
          | zero => exact le_refl _
          | succ k =>
              have hk : k < xs.length := by simpa using hj
              have hmem : xs.getD k d ∈ xs := by
                rw [List.getD_eq_getElem _ _ hk]
                exact List.getElem_mem hk
              exact hmin _ hmem
        · intro j hj
          omega
      · have hne : xs ≠ [] := by
          intro hx
          rw [hx] at hall
          exact hall rfl
        obtain ⟨hm, hminim, hfirst⟩ := ih hne
        have hs : argmin (x :: xs) = argmin xs + 1 := by rw [argmin, if_neg hall]
        have hlt : ∃ v ∈ xs, v < x := by
          by_contra hc
          push_neg at hc
          apply hall
          rw [List.all_eq_true]
          intro v hv
          exact decide_eq_true (hc v hv)
        obtain ⟨v, hv, hvx⟩ := hlt
        obtain ⟨kv, hkv, hkveq⟩ := List.mem_iff_getElem.mp hv
        have hminx : xs.getD (argmin xs) d < x := by
          have h1 : xs.getD (argmin xs) d ≤ xs.getD kv d := hminim kv hkv
          have h2 : xs.getD kv d = v := by rw [List.getD_eq_getElem _ _ hkv, hkveq]
          rw [h2] at h1
          exact lt_of_le_of_lt h1 hvx
        rw [hs]
        refine ⟨by simpa using hm, ?_, ?_⟩
        · intro j hj
          cases j with
          | zero => exact le_of_lt hminx
          | succ k =>
              have hk : k < xs.length := by simpa using hj
              exact hminim k hk
        · intro j hj
          cases j with
          | zero => exact hminx
          | succ k =>
              have hk : k < argmin xs := by omega
              exact hfirst k hk

/-- **C10.** For a non-empty epoch array, `find_closest_time_index`
returns a valid index whose absolute time difference to the target is
minimal, and the first such index (every earlier index has a strictly
larger difference). -/
theorem find_closest_time_index_spec (epochs : List Int) (target : Int)
    (h : epochs ≠ []) :
    find_closest_time_index epochs target < epochs.length ∧
    (∀ j, j < epochs.length →
      |epochs.getD (find_closest_time_index epochs target) 0 - target| ≤
        |epochs.getD j 0 - target|) ∧
    (∀ j, j < find_closest_time_index epochs target →
      |epochs.getD (find_closest_time_index epochs target) 0 - target| <
        |epochs.getD j 0 - target|) := by
  have hne : epochs.map (fun time => |time - target|) ≠ [] := by
    simpa using h
  obtain ⟨hm, hminim, hfirst⟩ := argmin_spec (0 : Int) _ hne
  rw [find_closest_time_index]
  have hlen : (epochs.map fun time => |time - target|).length = epochs.length := by
    simp
  set m := argmin (epochs.map fun time => |time - target|) with hmdef
  have hmlt : m < epochs.length := by rwa [hlen] at hm
  have hget : ∀ j, j < epochs.length →
      (epochs.map fun time => |time - target|).getD j 0 =
        |epochs.getD j 0 - target| := by
    intro j hj
    exact getD_map_lt _ _ 0 _ hj
  refine ⟨hmlt, ?_, ?_⟩
  · intro j hj
    have := hminim j (by rwa [hlen])
    rwa [hget m hmlt, hget j hj] at this
  · intro j hj
    have hjlen : j < epochs.length := by omega
    have := hfirst j hj
    rwa [hget m hmlt, hget j hjlen] at this

/-- Witness for C10 on the concrete epochs `[5, 3, 4]` with target 0: the
returned index is valid and its difference is at most that of index 2. -/
theorem find_closest_time_index_spec_witness :
    find_closest_time_index [5, 3, 4] 0 < ([5, 3, 4] : List Int).length ∧
    |([5, 3, 4] : List Int).getD (find_closest_time_index [5, 3, 4] 0) 0 - 0| ≤
      |([5, 3, 4] : List Int).getD 2 0 - 0| :=
  ⟨(find_closest_time_index_spec [5, 3, 4] 0 (by decide)).1,
   (find_closest_time_index_spec [5, 3, 4] 0 (by decide)).2.1 2 (by norm_num)⟩

/-! ## C8: `write_summary` per-month slicing

`write_summary` computes `yyyymm = x.year * 100 + x.month` over the dates,
`starts = concatenate(([0], nonzero(diff(yyyymm))[0] + 1))`,
`stops = concatenate((starts[1:], [len]))`, and writes one file per
`(start, stop)` pair with the records `dates[start:stop]` etc. -/

/-- A parsed calendar date, reduced to the fields the slicing uses. -/
structure HSDate where
  year : Nat
  month : Nat
  deriving DecidableEq

/-- `numpy.vectorize(lambda x: x.year * 100 + x.month)(dates)`. -/
def yyyymm (dates : List HSDate) : List Nat :=
  dates.map fun d => d.year * 100 + d.month

/-- `starts`: 0 followed by each index just after a `yyyymm` change
(`nonzero(diff(yyyymm))[0] + 1`). -/
def write_starts (y : List Nat) : List Nat :=
  0 :: (((List.range (y.length - 1)).filter fun k =>
    y.getD (k + 1) 0 != y.getD k 0).map fun k => k + 1)

/-- `stops`: `starts[1:]` followed by the record count. -/
def write_stops (y : List Nat) : List Nat :=
  (write_starts y).drop 1 ++ [y.length]

/-- The per-file `(start, stop)` pairs: `zip(starts, stops)`. -/
def monthSlices (y : List Nat) : List (Nat × Nat) :=
  (write_starts y).zip (write_stops y)

/-- Pairs of consecutive entries of `l`, with sentinel `T` closing the
last pair: the generic shape of `zip(starts, stops)`. -/
def consecPairs (l : List Nat) (T : Nat) : List (Nat × Nat) :=
  l.zip (l.drop 1 ++ [T])

/-- `monthSlices` is the consecutive pairing of `starts` with sentinel
`len`. -/
theorem monthSlices_eq (y : List Nat) :
    monthSlices y = consecPairs (write_starts y) y.length := rfl

/-- Unfolding: a two-element head. -/
theorem consecPairs_cons2 (a b : Nat) (rest : List Nat) (T : Nat) :
    consecPairs (a :: b :: rest) T = (a, b) :: consecPairs (b :: rest) T := rfl

/-- Unfolding: a single element pairs with the sentinel. -/
theorem consecPairs_single (a T : Nat) : consecPairs [a] T = [(a, T)] := rfl

/-- The head pair starts at the list head. -/
theorem consecPairs_head_fst (b : Nat) (r : List Nat) (T : Nat) :
    ((consecPairs (b :: r) T).getD 0 (0, 0)).1 = b := by
  cases r with
  | nil => rfl
  | cons c r2 => rfl

/-- First components of the pairs are list elements. -/
theorem consecPairs_fst_mem {l : List Nat} {T : Nat} {p : Nat × Nat}
    (hp : p ∈ consecPairs l T) : p.1 ∈ l := by
  obtain ⟨p1, p2⟩ := p
  exact (List.of_mem_zip hp).1

/-- Second components are later list elements or the sentinel. -/
theorem consecPairs_snd_mem {l : List Nat} {T : Nat} {p : Nat × Nat}
    (hp : p ∈ consecPairs l T) : p.2 ∈ l.drop 1 ∨ p.2 = T := by
  obtain ⟨p1, p2⟩ := p
  have := (List.of_mem_zip hp).2
  rw [List.mem_append, List.mem_singleton] at this
  exact this

/-- In a strictly increasing list, no list element lies strictly between
the two ends of a consecutive pair. -/
theorem consecPairs_not_between {l : List Nat} {T : Nat}
    (hpw : List.Pairwise (· < ·) l) :
    ∀ p ∈ consecPairs l T, ∀ x ∈ l, ¬(p.1 < x ∧ x < p.2) := by
  induction l with
  | nil => intro p hp; simp [consecPairs] at hp
  | cons a rest ih =>
      intro p hp x hx
      cases rest with
      | nil =>
          rw [consecPairs_single, List.mem_singleton] at hp
          subst hp
          rw [List.mem_singleton] at hx
          subst hx
          rintro ⟨h1, _⟩
          exact lt_irrefl _ h1
      | cons b rest2 =>
          rw [consecPairs_cons2, List.mem_cons] at hp
          have hpw2 := (List.pairwise_cons.mp hpw).2
          have hab := (List.pairwise_cons.mp hpw).1
          rcases hp with rfl | hp
          · rintro ⟨h1, h2⟩
            rw [List.mem_cons] at hx
            rcases hx with rfl | hx
            · exact lt_irrefl _ h1
            · rw [List.mem_cons] at hx
              rcases hx with rfl | hx
              · exact lt_irrefl _ h2
              · have hbx : b < x := (List.pairwise_cons.mp hpw2).1 x hx
                omega
          · rw [List.mem_cons] at hx
            rcases hx with rfl | hx
            · obtain ⟨p1, p2⟩ := p
              have hp1 : p1 ∈ b :: rest2 := (List.of_mem_zip hp).1
              have := hab p1 hp1
              rintro ⟨h1, _⟩
              omega
            · exact ih hpw2 p hp x hx

/-- In a strictly increasing list bounded by the sentinel, every pair is
increasing. -/
theorem consecPairs_fst_lt_snd {l : List Nat} {T : Nat}
    (hpw : List.Pairwise (· < ·) l) (hbound : ∀ x ∈ l, x < T) :
    ∀ p ∈ consecPairs l T, p.1 < p.2 := by
  induction l with
  | nil => intro p hp; simp [consecPairs] at hp
  | cons a rest ih =>
      intro p hp
      cases rest with
      | nil =>
          rw [consecPairs_single, List.mem_singleton] at hp
          subst hp
          exact hbound a (by simp)
      | cons b rest2 =>
          rw [consecPairs_cons2, List.mem_cons] at hp
          rcases hp with rfl | hp
          · exact (List.pairwise_cons.mp hpw).1 b (by simp)
          · exact ih (List.pairwise_cons.mp hpw).2
              (fun x hx => hbound x (by simp [hx])) p hp

/-- Each pair's stop is the next pair's start. -/
theorem consecPairs_contig {l : List Nat} {T : Nat} :
    ∀ i, i + 1 < (consecPairs l T).length →
      ((consecPairs l T).getD i (0, 0)).2 =
        ((consecPairs l T).getD (i + 1) (0, 0)).1 := by
  induction l with
  | nil => intro i hi; simp [consecPairs] at hi
  | cons a rest ih =>
      intro i hi
      cases rest with
      | nil => rw [consecPairs_single] at hi; simp at hi
      | cons b rest2 =>
          rw [consecPairs_cons2] at hi
          cases i with
          | zero =>
              rw [consecPairs_cons2]
              show (a, b).2 = ((consecPairs (b :: rest2) T).getD 0 (0, 0)).1
              rw [consecPairs_head_fst]
          | succ i2 =>
              rw [consecPairs_cons2]
              show ((consecPairs (b :: rest2) T).getD i2 (0, 0)).2 =
                ((consecPairs (b :: rest2) T).getD (i2 + 1) (0, 0)).1
              exact ih i2 (by simpa using hi)

/-- Concatenating the `[start:stop)` segments of consecutive pairs
reproduces the list from the first start on. -/
theorem flatten_consecPairs {α : Type} (ds : List α) :
    ∀ (rest : List Nat) (a : Nat), a ≤ ds.length →
    (∀ x ∈ rest, x ≤ ds.length) →
    List.Pairwise (· ≤ ·) (a :: rest) →
    ((consecPairs (a :: rest) ds.length).map fun p =>
      (ds.drop p.1).take (p.2 - p.1)).flatten = ds.drop a := by
  intro rest
  induction rest with
  | nil =>
      intro a ha _ _
      rw [consecPairs_single, List.map_cons, List.map_nil, List.flatten_cons,
        List.flatten_nil, List.append_nil]
      refine List.take_of_length_le ?_
      rw [List.length_drop]
  | cons b rest2 ih =>
      intro a ha hall hpw
      have hab : a ≤ b := (List.pairwise_cons.mp hpw).1 b (by simp)
      have hpw2 : List.Pairwise (· ≤ ·) (b :: rest2) := (List.pairwise_cons.mp hpw).2
      have hb : b ≤ ds.length := hall b (by simp)
      have hall2 : ∀ x ∈ rest2, x ≤ ds.length := fun x hx => hall x (by simp [hx])
      rw [consecPairs_cons2, List.map_cons, List.flatten_cons, ih b hb hall2 hpw2]
      have hdd : ds.drop b = (ds.drop a).drop (b - a) := by
        rw [List.drop_drop]
        congr 1
        omega
      rw [hdd, List.take_append_drop]

/-- The start indices are strictly increasing. -/
theorem write_starts_pairwise (y : List Nat) :
    List.Pairwise (· < ·) (write_starts y) := by
  rw [write_starts]
  refine List.Pairwise.cons ?_ ?_
  · intro j hj
    rw [List.mem_map] at hj
    obtain ⟨k, _, rfl⟩ := hj
    omega
  · have h1 : List.Pairwise (· < ·) ((List.range (y.length - 1)).filter fun k =>
        y.getD (k + 1) 0 != y.getD k 0) :=
      (List.pairwise_lt_range _).sublist (List.filter_sublist _)
    rw [List.pairwise_map]
    exact h1.imp fun h => by omega

/-- For a non-empty record list, every start index is a valid record
index. -/
theorem write_starts_lt (y : List Nat) (hT : 0 < y.length) :
    ∀ x ∈ write_starts y, x < y.length := by
  intro x hx
  rw [write_starts, List.mem_cons] at hx
  rcases hx with rfl | hx
  · exact hT
  · rw [List.mem_map] at hx
    obtain ⟨k, hk, rfl⟩ := hx
    rw [List.mem_filter, List.mem_range] at hk
    omega

/-- Membership in `starts`: index 0, or an index where `yyyymm` changes. -/
theorem mem_write_starts (y : List Nat) (j : Nat) :
    j ∈ write_starts y ↔
      j = 0 ∨ (1 ≤ j ∧ j < y.length ∧ y.getD j 0 ≠ y.getD (j - 1) 0) := by
  rw [write_starts, List.mem_cons]
  constructor
  · rintro (rfl | hj)
    · exact Or.inl rfl
    · right
      rw [List.mem_map] at hj
      obtain ⟨k, hk, rfl⟩ := hj
      rw [List.mem_filter, List.mem_range] at hk
      obtain ⟨hk1, hk2⟩ := hk
      rw [bne_iff_ne] at hk2
      exact ⟨by omega, by omega, by simpa using hk2⟩
  · rintro (rfl | ⟨h1, h2, h3⟩)
    · exact Or.inl rfl
    · right
      rw [List.mem_map]
      refine ⟨j - 1, ?_, by omega⟩
      rw [List.mem_filter, List.mem_range]
      refine ⟨by omega, ?_⟩
      rw [bne_iff_ne]
      have hj : j - 1 + 1 = j := by omega
      rw [hj]
      exact h3

/-- A stop drawn from `starts[1:]` marks a `yyyymm` change at a valid
index. -/
theorem mem_drop_write_starts {y : List Nat} {j : Nat}
    (hj : j ∈ (write_starts y).drop 1) :
    1 ≤ j ∧ j < y.length ∧ y.getD j 0 ≠ y.getD (j - 1) 0 := by
  have hmem : j ∈ write_starts y := List.mem_of_mem_drop hj
  have hne : j ≠ 0 := by
    rw [write_starts, List.drop_succ_cons, List.drop_zero, List.mem_map] at hj
    obtain ⟨k, _, rfl⟩ := hj
    omega
  rcases (mem_write_starts y j).mp hmem with h0 | h
  · exact absurd h0 hne
  · exact h

/-- Every slice stop is at most the record count. -/
theorem monthSlices_snd_le (y : List Nat) :
    ∀ p ∈ monthSlices y, p.2 ≤ y.length := by
  intro p hp
  rw [monthSlices_eq] at hp
  rcases consecPairs_snd_mem hp with hd | hT2
  · exact le_of_lt (mem_drop_write_starts hd).2.1
  · omega

/-- Within a slice, the `yyyymm` key is constant. -/
theorem slice_run (y : List Nat) :
    ∀ p ∈ monthSlices y, ∀ k, p.1 ≤ k → k < p.2 → y.getD k 0 = y.getD p.1 0 := by
  intro p hp k hk hk2
  induction k, hk using Nat.le_induction with
  | base => rfl
  | succ k hk ih =>
      have hkp : k < p.2 := by omega
      have hple : p.2 ≤ y.length := monthSlices_snd_le y p hp
      have hnotmem : k + 1 ∉ write_starts y := by
        intro hmem
        have := consecPairs_not_between (write_starts_pairwise y) p
          (by rwa [monthSlices_eq] at hp) (k + 1) hmem
        exact this ⟨by omega, hk2⟩
      rw [mem_write_starts] at hnotmem
      push_neg at hnotmem
      have heq : y.getD (k + 1) 0 = y.getD k 0 := by
        have := hnotmem.2 (by omega) (by omega)
        simpa using this
      rw [heq]
      exact ih hkp

/-- Each slice is maximal: the key changes at both boundaries (when they
are interior). -/
theorem slice_maximal (y : List Nat) :
    ∀ p ∈ monthSlices y,
      (p.1 ≠ 0 → y.getD p.1 0 ≠ y.getD (p.1 - 1) 0) ∧
      (p.2 ≠ y.length → y.getD p.2 0 ≠ y.getD (p.2 - 1) 0) := by
  intro p hp
  have h1 : p.1 ∈ write_starts y :=
    consecPairs_fst_mem (by rwa [monthSlices_eq] at hp)
  constructor
  · intro hne
    rcases (mem_write_starts y p.1).mp h1 with h0 | h
    · exact absurd h0 hne
    · exact h.2.2
  · intro hne
    rcases consecPairs_snd_mem (by rwa [monthSlices_eq] at hp) with hd | hT2
    · exact (mem_drop_write_starts hd).2.2
    · exact absurd hT2 hne

/-- **C8.** The `(start, stop)` slices of `write_summary` partition the
record range exactly: concatenating the index slices yields `[0, T)` in
order, concatenating the record slices yields the records in original
order, every slice is non-empty with each stop equal to the next start,
the records of one slice share one calendar year and month, and each
slice is maximal (the `yyyymm` key changes at every interior boundary). -/
theorem write_summary_month_partition (dates : List HSDate)
    (hT : 0 < dates.length) (hm : ∀ d ∈ dates, d.month < 100) :
    (((monthSlices (yyyymm dates)).map fun p =>
        ((List.range dates.length).drop p.1).take (p.2 - p.1)).flatten =
      List.range dates.length) ∧
    (((monthSlices (yyyymm dates)).map fun p =>
        (dates.drop p.1).take (p.2 - p.1)).flatten = dates) ∧
    (∀ p ∈ monthSlices (yyyymm dates), p.1 < p.2) ∧
    (∀ i, i + 1 < (monthSlices (yyyymm dates)).length →
      ((monthSlices (yyyymm dates)).getD i (0, 0)).2 =
        ((monthSlices (yyyymm dates)).getD (i + 1) (0, 0)).1) ∧
    (∀ p ∈ monthSlices (yyyymm dates), ∀ k, p.1 ≤ k → k < p.2 →
      (dates.getD k ⟨0, 0⟩).year = (dates.getD p.1 ⟨0, 0⟩).year ∧
      (dates.getD k ⟨0, 0⟩).month = (dates.getD p.1 ⟨0, 0⟩).month) ∧
    (∀ p ∈ monthSlices (yyyymm dates),
      (p.1 ≠ 0 → (yyyymm dates).getD p.1 0 ≠ (yyyymm dates).getD (p.1 - 1) 0) ∧
      (p.2 ≠ dates.length →
        (yyyymm dates).getD p.2 0 ≠ (yyyymm dates).getD (p.2 - 1) 0)) := by
  have hylen : (yyyymm dates).length = dates.length := by simp [yyyymm]
  have hT2 : 0 < (yyyymm dates).length := by omega
  have hpw := write_starts_pairwise (yyyymm dates)
  have hbound := write_starts_lt (yyyymm dates) hT2
  have hflat : ∀ {α : Type} (ds : List α), ds.length = dates.length →
      ((monthSlices (yyyymm dates)).map fun p =>
        (ds.drop p.1).take (p.2 - p.1)).flatten = ds := by
    intro α ds hds
    have hTeq : (yyyymm dates).length = ds.length := by omega
    cases hws : write_starts (yyyymm dates) with
    | nil => simp [write_starts] at hws
    | cons a rest =>
        have ha : a = 0 := by
          rw [write_starts] at hws
          injection hws with h1 _
          exact h1.symm
        subst ha
        rw [monthSlices_eq, hTeq, hws]
        have hrest : ∀ x ∈ rest, x ≤ ds.length := by
          intro x hx
          have hxs : x ∈ write_starts (yyyymm dates) := by
            rw [hws]
            exact List.mem_cons_of_mem _ hx
          have := hbound x hxs
          omega
        have hpcons : List.Pairwise (· ≤ ·) ((0 : Nat) :: rest) := by
          have := hpw.imp (fun h => Nat.le_of_lt h)
          rwa [hws] at this
        rw [flatten_consecPairs ds rest 0 (by omega) hrest hpcons, List.drop_zero]
  refine ⟨hflat (List.range dates.length) (by simp), hflat dates rfl, ?_, ?_, ?_, ?_⟩
  · intro p hp
    exact consecPairs_fst_lt_snd hpw hbound p (by rwa [monthSlices_eq] at hp)
  · intro i hi
    rw [monthSlices_eq]
    rw [monthSlices_eq] at hi
    exact consecPairs_contig i hi
  · intro p hp k h1 h2
    have hklen : k < dates.length := by
      have := monthSlices_snd_le (yyyymm dates) p hp
      omega
    have hp1len : p.1 < dates.length := by omega
    have hrun := slice_run (yyyymm dates) p hp k h1 h2
    have hk0 : (yyyymm dates).getD k 0 =
        (dates.getD k ⟨0, 0⟩).year * 100 + (dates.getD k ⟨0, 0⟩).month := by
      rw [yyyymm]
      exact getD_map_lt (fun d => d.year * 100 + d.month) dates ⟨0, 0⟩ 0 hklen
    have hp10 : (yyyymm dates).getD p.1 0 =
        (dates.getD p.1 ⟨0, 0⟩).year * 100 + (dates.getD p.1 ⟨0, 0⟩).month := by
      rw [yyyymm]
      exact getD_map_lt (fun d => d.year * 100 + d.month) dates ⟨0, 0⟩ 0 hp1len
    have hmk : (dates.getD k ⟨0, 0⟩).month < 100 := by
      refine hm _ ?_
      rw [List.getD_eq_getElem _ _ hklen]
      exact List.getElem_mem hklen
    have hmp : (dates.getD p.1 ⟨0, 0⟩).month < 100 := by
      refine hm _ ?_
      rw [List.getD_eq_getElem _ _ hp1len]
      exact List.getElem_mem hp1len
    rw [hk0, hp10] at hrun
    constructor <;> omega
  · intro p hp
    have := slice_maximal (yyyymm dates) p hp
    rwa [hylen] at this

/-- Concrete dates spanning two months. -/
def dDates : List HSDate := [⟨2029, 7⟩, ⟨2029, 8⟩, ⟨2029, 8⟩]

/-- Witness for C8 on three records spanning July/August 2029: the month
slices reassemble the record list. -/
theorem write_summary_month_partition_witness :
    ((monthSlices (yyyymm dDates)).map fun p =>
      (dDates.drop p.1).take (p.2 - p.1)).flatten = dDates :=
  (write_summary_month_partition dDates (by decide) (by decide)).2.1
